import Mathlib

/-!
Verification of the linear-updates report pipeline.

Strings are modelled as newline-free lists of characters (`Str`), instants
as integers (seconds), and Markdown documents as lists of lines.  Fallible
operations return `Except Str`.  Each definition is a shallow embedding of
the corresponding Python function in `src/linear_updates`.
-/

instance {ε α : Type _} [DecidableEq ε] [DecidableEq α] : DecidableEq (Except ε α) := fun x y =>
  match x, y with
  | .ok a, .ok b =>
      if h : a = b then isTrue (by rw [h]) else isFalse (fun he => by cases he; exact h rfl)
  | .error a, .error b =>
      if h : a = b then isTrue (by rw [h]) else isFalse (fun he => by cases he; exact h rfl)
  | .ok _, .error _ => isFalse (fun he => by cases he)
  | .error _, .ok _ => isFalse (fun he => by cases he)

namespace LinearUpdates

/-- Python strings are modelled as lists of characters. -/
abbrev Str := List Char

/-- Coerce a Lean string literal to the character-list model. -/
def str (s : String) : Str := s.data

/-- Python `str.lstrip()` (leading-whitespace removal). -/
def pyLstrip (s : Str) : Str := s.dropWhile Char.isWhitespace

/-- Python `str.rstrip()` (trailing-whitespace removal). -/
def pyRstrip (s : Str) : Str := (s.reverse.dropWhile Char.isWhitespace).reverse

/-- Python `str.strip()`. -/
def pyStrip (s : Str) : Str := pyRstrip (pyLstrip s)

/-- Python truthiness-based `x or default` for an optional string:
`None` and the empty string both fall back to the default. -/
def orDefault (o : Option Str) (d : Str) : Str :=
  match o with
  | none => d
  | some s => if s = [] then d else s

/-- `models.Cycle`: id, optional name, optional number, start and end instants. -/
structure Cycle where
  id : Str
  name : Option Str
  number : Option Int
  starts_at : Int
  ends_at : Int
deriving DecidableEq, Repr

/-- `min(l, key=lambda c: c.starts_at)` on the non-empty list `best :: rest`:
Python's `min` keeps the first element among those with minimal key. -/
def minByStartAux (best : Cycle) : List Cycle → Cycle
  | [] => best
  | c :: cs => minByStartAux (if c.starts_at < best.starts_at then c else best) cs

/-- `max(l, key=lambda c: c.ends_at)` on the non-empty list `best :: rest`:
Python's `max` keeps the first element among those with maximal key. -/
def maxByEndAux (best : Cycle) : List Cycle → Cycle
  | [] => best
  | c :: cs => maxByEndAux (if best.ends_at < c.ends_at then c else best) cs

/-- `draft._pick_cycles`: sort by start instant (Python's `sorted` is a stable
sort, modelled by stable insertion sort), take the first cycle whose
`[start, end]` interval contains `now_utc` as current; if none contains it,
fall back to earliest strictly-future / latest past-or-ending-now cycles;
errors mirror the `LinearAPIError` messages raised in the source. -/
def _pick_cycles (cycles : List Cycle) (now_utc : Int) : Except Str (Cycle × Cycle) :=
  let cycles_sorted := cycles.insertionSort (fun a b => a.starts_at ≤ b.starts_at)
  match cycles_sorted.find? (fun c => decide (c.starts_at ≤ now_utc) && decide (now_utc ≤ c.ends_at)) with
  | none =>
    let future := cycles_sorted.filter (fun c => decide (now_utc < c.starts_at))
    let past := cycles_sorted.filter (fun c => decide (c.ends_at ≤ now_utc))
    match future, past with
    | f :: fs, p :: ps => .ok (minByStartAux f fs, maxByEndAux p ps)
    | _, _ => .error (str "Could not determine current/previous cycle from available cycles.")
  | some current =>
    match cycles_sorted.filter (fun c => decide (c.ends_at < current.starts_at)) with
    | [] => .error (str "Found current cycle but no previous cycle was available.")
    | p :: ps => .ok (current, maxByEndAux p ps)

theorem minByStartAux_mem (l : List Cycle) : ∀ best, minByStartAux best l ∈ best :: l := by
  induction l with
  | nil => intro best; simp [minByStartAux]
  | cons c cs ih =>
      intro best
      simp only [minByStartAux]
      by_cases hc : c.starts_at < best.starts_at
      · simp only [if_pos hc]
        rcases List.mem_cons.mp (ih c) with h1 | h1
        · simp [h1]
        · simp [List.mem_cons, h1]
      · simp only [if_neg hc]
        rcases List.mem_cons.mp (ih best) with h1 | h1
        · simp [h1]
        · simp [List.mem_cons, h1]

theorem minByStartAux_min (l : List Cycle) :
    ∀ best, (minByStartAux best l).starts_at ≤ best.starts_at ∧
      ∀ c ∈ l, (minByStartAux best l).starts_at ≤ c.starts_at := by
  induction l with
  | nil => intro best; simp [minByStartAux]
  | cons c cs ih =>
      intro best
      have h := ih (if c.starts_at < best.starts_at then c else best)
      simp only [minByStartAux]
      constructor
      · refine le_trans h.1 ?_
        by_cases hc : c.starts_at < best.starts_at <;> simp [hc]
        exact le_of_lt hc
      · intro d hd
        rcases List.mem_cons.mp hd with h1 | h1
        · subst h1
          refine le_trans h.1 ?_
          by_cases hc : d.starts_at < best.starts_at <;> simp [hc]
          exact le_of_not_lt hc
        · exact h.2 d h1

theorem maxByEndAux_mem (l : List Cycle) : ∀ best, maxByEndAux best l ∈ best :: l := by
  induction l with
  | nil => intro best; simp [maxByEndAux]
  | cons c cs ih =>
      intro best
      simp only [maxByEndAux]
      by_cases hc : best.ends_at < c.ends_at
      · simp only [if_pos hc]
        rcases List.mem_cons.mp (ih c) with h1 | h1
        · simp [h1]
        · simp [List.mem_cons, h1]
      · simp only [if_neg hc]
        rcases List.mem_cons.mp (ih best) with h1 | h1
        · simp [h1]
        · simp [List.mem_cons, h1]

theorem maxByEndAux_max (l : List Cycle) :
    ∀ best, best.ends_at ≤ (maxByEndAux best l).ends_at ∧
      ∀ c ∈ l, c.ends_at ≤ (maxByEndAux best l).ends_at := by
  induction l with
  | nil => intro best; simp [maxByEndAux]
  | cons c cs ih =>
      intro best
      have h := ih (if best.ends_at < c.ends_at then c else best)
      simp only [maxByEndAux]
      constructor
      · refine le_trans ?_ h.1
        by_cases hc : best.ends_at < c.ends_at <;> simp [hc]
        exact le_of_lt hc
      · intro d hd
        rcases List.mem_cons.mp hd with h1 | h1
        · subst h1
          refine le_trans ?_ h.1
          by_cases hc : best.ends_at < d.ends_at <;> simp [hc]
          exact le_of_not_lt hc
        · exact h.2 d h1

example :
    _pick_cycles [⟨str "a", none, none, 0, 10⟩, ⟨str "b", none, none, 20, 30⟩] 25 =
      .ok (⟨str "b", none, none, 20, 30⟩, ⟨str "a", none, none, 0, 10⟩) := by decide

example :
    _pick_cycles [⟨str "a", none, none, 0, 10⟩, ⟨str "b", none, none, 20, 30⟩] 15 =
      .ok (⟨str "b", none, none, 20, 30⟩, ⟨str "a", none, none, 0, 10⟩) := by decide

example :
    _pick_cycles [⟨str "a", none, none, 0, 10⟩] 5 =
      .error (str "Found current cycle but no previous cycle was available.") := by decide

/-- C1: when some cycle's `[start, end]` interval contains the reference
instant, `_pick_cycles` returns a containing cycle as current together with
the latest-ending cycle among those ending strictly before current's start,
and fails with an error when no cycle ends strictly before current's start. -/
theorem pick_cycles_containment (cycles : List Cycle) (now_utc : Int)
    (h : ∃ c ∈ cycles, c.starts_at ≤ now_utc ∧ now_utc ≤ c.ends_at) :
    (∃ cur prev, _pick_cycles cycles now_utc = .ok (cur, prev) ∧
        cur ∈ cycles ∧ cur.starts_at ≤ now_utc ∧ now_utc ≤ cur.ends_at ∧
        prev ∈ cycles ∧ prev.ends_at < cur.starts_at ∧
        ∀ c ∈ cycles, c.ends_at < cur.starts_at → c.ends_at ≤ prev.ends_at) ∨
    (∃ cur, _pick_cycles cycles now_utc =
          .error (str "Found current cycle but no previous cycle was available.") ∧
        cur ∈ cycles ∧ cur.starts_at ≤ now_utc ∧ now_utc ≤ cur.ends_at ∧
        ∀ c ∈ cycles, ¬ c.ends_at < cur.starts_at) := by
  obtain ⟨c0, hc0mem, hc00, hc01⟩ := h
  have hsome : (List.find? (fun c => decide (c.starts_at ≤ now_utc) && decide (now_utc ≤ c.ends_at))
      (cycles.insertionSort (fun a b => a.starts_at ≤ b.starts_at))).isSome := by
    rw [List.find?_isSome]
    exact ⟨c0, (List.mem_insertionSort _).mpr hc0mem, by simp [hc00, hc01]⟩
  obtain ⟨cur, hfind⟩ := Option.isSome_iff_exists.mp hsome
  have hcur_mem : cur ∈ cycles := (List.mem_insertionSort _).mp (List.mem_of_find?_eq_some hfind)
  have hcur_pred := List.find?_some hfind
  simp only [Bool.and_eq_true, decide_eq_true_eq] at hcur_pred
  cases hfilt : List.filter (fun c => decide (c.ends_at < cur.starts_at))
      (cycles.insertionSort (fun a b => a.starts_at ≤ b.starts_at)) with
  | nil =>
      right
      refine ⟨cur, ?_, hcur_mem, hcur_pred.1, hcur_pred.2, ?_⟩
      · simp only [_pick_cycles, hfind, hfilt]
      · intro c hc hlt
        have : c ∈ List.filter (fun c => decide (c.ends_at < cur.starts_at))
            (cycles.insertionSort (fun a b => a.starts_at ≤ b.starts_at)) :=
          List.mem_filter.mpr ⟨(List.mem_insertionSort _).mpr hc, by simpa using hlt⟩
        rw [hfilt] at this
        simp at this
  | cons p ps =>
      left
      refine ⟨cur, maxByEndAux p ps, ?_, hcur_mem, hcur_pred.1, hcur_pred.2, ?_, ?_, ?_⟩
      · simp only [_pick_cycles, hfind, hfilt]
      · have hmem := maxByEndAux_mem ps p
        rw [← hfilt] at hmem
        exact (List.mem_insertionSort _).mp (List.mem_filter.mp hmem).1
      · have hmem := maxByEndAux_mem ps p
        rw [← hfilt] at hmem
        have := (List.mem_filter.mp hmem).2
        simpa using this
      · intro c hc hlt
        have hcin : c ∈ List.filter (fun c => decide (c.ends_at < cur.starts_at))
            (cycles.insertionSort (fun a b => a.starts_at ≤ b.starts_at)) :=
          List.mem_filter.mpr ⟨(List.mem_insertionSort _).mpr hc, by simpa using hlt⟩
        rw [hfilt] at hcin
        rcases List.mem_cons.mp hcin with h1 | h1
        · subst h1; exact (maxByEndAux_max ps c).1
        · exact (maxByEndAux_max ps p).2 c h1

/-- Sample cycle `[0, 10]` used to instantiate universally quantified theorems. -/
def cycA : Cycle := ⟨str "a", none, none, 0, 10⟩

/-- Sample cycle `[20, 30]` used to instantiate universally quantified theorems. -/
def cycB : Cycle := ⟨str "b", none, none, 20, 30⟩

/-- Degenerate cycle whose start instant (5) lies after its end instant (1). -/
def cycX : Cycle := ⟨str "x", none, none, 5, 1⟩

/-- Witness for C1 at a concrete input: cycle `b` contains instant 25 and the
resolver picks it with `a` as previous. -/
theorem pick_cycles_containment_witness :
    (∃ c ∈ [cycA, cycB], c.starts_at ≤ (25 : Int) ∧ (25 : Int) ≤ c.ends_at) ∧
    ((∃ cur prev, _pick_cycles [cycA, cycB] 25 = .ok (cur, prev) ∧
        cur ∈ [cycA, cycB] ∧ cur.starts_at ≤ 25 ∧ (25 : Int) ≤ cur.ends_at ∧
        prev ∈ [cycA, cycB] ∧ prev.ends_at < cur.starts_at ∧
        ∀ c ∈ [cycA, cycB], c.ends_at < cur.starts_at → c.ends_at ≤ prev.ends_at) ∨
    (∃ cur, _pick_cycles [cycA, cycB] 25 =
          .error (str "Found current cycle but no previous cycle was available.") ∧
        cur ∈ [cycA, cycB] ∧ cur.starts_at ≤ 25 ∧ (25 : Int) ≤ cur.ends_at ∧
        ∀ c ∈ [cycA, cycB], ¬ c.ends_at < cur.starts_at)) :=
  ⟨by decide, pick_cycles_containment [cycA, cycB] 25 (by decide)⟩

/-- C2 fails as stated on a degenerate cycle (start 5, end 1) at instant 1:
no cycle contains the instant and no cycle ends strictly before it, so the
claim demands an error, yet the resolver returns the degenerate cycle as both
current and previous (its past-filter uses an inclusive end comparison). -/
theorem pick_cycles_fallback_counterexample :
    (∀ c ∈ [cycX], ¬ (c.starts_at ≤ (1 : Int) ∧ (1 : Int) ≤ c.ends_at)) ∧
    (∀ c ∈ [cycX], ¬ c.ends_at < (1 : Int)) ∧
    _pick_cycles [cycX] 1 = .ok (cycX, cycX) := by decide

/-- C2 (amended): assuming every cycle's start is strictly before its end,
when no cycle contains the reference instant the resolver returns the
earliest strictly-future cycle as current and the latest strictly-past cycle
as previous when both exist, and errors when either side is empty. -/
theorem pick_cycles_fallback (cycles : List Cycle) (now_utc : Int)
    (hinv : ∀ c ∈ cycles, c.starts_at < c.ends_at)
    (hnone : ∀ c ∈ cycles, ¬ (c.starts_at ≤ now_utc ∧ now_utc ≤ c.ends_at)) :
    ((∃ f ∈ cycles, now_utc < f.starts_at) ∧ (∃ p ∈ cycles, p.ends_at < now_utc) →
      ∃ cur prev, _pick_cycles cycles now_utc = .ok (cur, prev) ∧
        cur ∈ cycles ∧ now_utc < cur.starts_at ∧
        (∀ c ∈ cycles, now_utc < c.starts_at → cur.starts_at ≤ c.starts_at) ∧
        prev ∈ cycles ∧ prev.ends_at < now_utc ∧
        (∀ c ∈ cycles, c.ends_at < now_utc → c.ends_at ≤ prev.ends_at)) ∧
    ((¬ ∃ f ∈ cycles, now_utc < f.starts_at) ∨ (¬ ∃ p ∈ cycles, p.ends_at < now_utc) →
      _pick_cycles cycles now_utc =
        .error (str "Could not determine current/previous cycle from available cycles.")) := by
  have hends : ∀ c ∈ cycles, (c.ends_at ≤ now_utc ↔ c.ends_at < now_utc) := by
    intro c hc
    constructor
    · intro hle
      rcases lt_or_eq_of_le hle with hlt | heq
      · exact hlt
      · exact absurd ⟨le_of_lt (heq ▸ hinv c hc), le_of_eq heq.symm⟩ (hnone c hc)
    · exact le_of_lt
  have hfind : List.find? (fun c => decide (c.starts_at ≤ now_utc) && decide (now_utc ≤ c.ends_at))
      (cycles.insertionSort (fun a b => a.starts_at ≤ b.starts_at)) = none := by
    rw [List.find?_eq_none]
    intro c hc
    have := hnone c ((List.mem_insertionSort _).mp hc)
    simp only [Bool.and_eq_true, decide_eq_true_eq]
    tauto
  constructor
  · rintro ⟨⟨f0, hf0mem, hf0⟩, ⟨p0, hp0mem, hp0⟩⟩
    have hf0in : f0 ∈ List.filter (fun c => decide (now_utc < c.starts_at))
        (cycles.insertionSort (fun a b => a.starts_at ≤ b.starts_at)) :=
      List.mem_filter.mpr ⟨(List.mem_insertionSort _).mpr hf0mem, by simpa using hf0⟩
    have hp0in : p0 ∈ List.filter (fun c => decide (c.ends_at ≤ now_utc))
        (cycles.insertionSort (fun a b => a.starts_at ≤ b.starts_at)) :=
      List.mem_filter.mpr ⟨(List.mem_insertionSort _).mpr hp0mem, by simp [le_of_lt hp0]⟩
    cases hfut : List.filter (fun c => decide (now_utc < c.starts_at))
        (cycles.insertionSort (fun a b => a.starts_at ≤ b.starts_at)) with
    | nil => rw [hfut] at hf0in; simp at hf0in
    | cons f fs =>
        cases hpast : List.filter (fun c => decide (c.ends_at ≤ now_utc))
            (cycles.insertionSort (fun a b => a.starts_at ≤ b.starts_at)) with
        | nil => rw [hpast] at hp0in; simp at hp0in
        | cons p ps =>
            have hcur_in : minByStartAux f fs ∈ List.filter (fun c => decide (now_utc < c.starts_at))
                (cycles.insertionSort (fun a b => a.starts_at ≤ b.starts_at)) := by
              rw [hfut]; exact minByStartAux_mem fs f
            have hprev_in : maxByEndAux p ps ∈ List.filter (fun c => decide (c.ends_at ≤ now_utc))
                (cycles.insertionSort (fun a b => a.starts_at ≤ b.starts_at)) := by
              rw [hpast]; exact maxByEndAux_mem ps p
            have hcur_mem : minByStartAux f fs ∈ cycles :=
              (List.mem_insertionSort _).mp (List.mem_filter.mp hcur_in).1
            have hprev_mem : maxByEndAux p ps ∈ cycles :=
              (List.mem_insertionSort _).mp (List.mem_filter.mp hprev_in).1
            refine ⟨minByStartAux f fs, maxByEndAux p ps, ?_, hcur_mem, ?_, ?_, hprev_mem, ?_, ?_⟩
            · simp only [_pick_cycles, hfind, hfut, hpast]
            · have := (List.mem_filter.mp hcur_in).2; simpa using this
            · intro c hc hlt
              have hcin : c ∈ List.filter (fun c => decide (now_utc < c.starts_at))
                  (cycles.insertionSort (fun a b => a.starts_at ≤ b.starts_at)) :=
                List.mem_filter.mpr ⟨(List.mem_insertionSort _).mpr hc, by simpa using hlt⟩
              rw [hfut] at hcin
              rcases List.mem_cons.mp hcin with h1 | h1
              · subst h1; exact (minByStartAux_min fs c).1
              · exact (minByStartAux_min fs f).2 c h1
            · have := (List.mem_filter.mp hprev_in).2
              exact (hends _ hprev_mem).mp (by simpa using this)
            · intro c hc hlt
              have hcin : c ∈ List.filter (fun c => decide (c.ends_at ≤ now_utc))
                  (cycles.insertionSort (fun a b => a.starts_at ≤ b.starts_at)) :=
                List.mem_filter.mpr ⟨(List.mem_insertionSort _).mpr hc, by simp [le_of_lt hlt]⟩
              rw [hpast] at hcin
              rcases List.mem_cons.mp hcin with h1 | h1
              · subst h1; exact (maxByEndAux_max ps c).1
              · exact (maxByEndAux_max ps p).2 c h1
  · intro hempty
    cases hfut : List.filter (fun c => decide (now_utc < c.starts_at))
        (cycles.insertionSort (fun a b => a.starts_at ≤ b.starts_at)) with
    | nil =>
        cases hpast : List.filter (fun c => decide (c.ends_at ≤ now_utc))
            (cycles.insertionSort (fun a b => a.starts_at ≤ b.starts_at)) with
        | nil => simp only [_pick_cycles, hfind, hfut, hpast]
        | cons p ps => simp only [_pick_cycles, hfind, hfut, hpast]
    | cons f fs =>
        have hf : f ∈ cycles := by
          have : f ∈ List.filter (fun c => decide (now_utc < c.starts_at))
              (cycles.insertionSort (fun a b => a.starts_at ≤ b.starts_at)) := by
            rw [hfut]; exact List.mem_cons_self f fs
          exact (List.mem_insertionSort _).mp (List.mem_filter.mp this).1
        have hf_lt : now_utc < f.starts_at := by
          have : f ∈ List.filter (fun c => decide (now_utc < c.starts_at))
              (cycles.insertionSort (fun a b => a.starts_at ≤ b.starts_at)) := by
            rw [hfut]; exact List.mem_cons_self f fs
          have := (List.mem_filter.mp this).2; simpa using this
        rcases hempty with hnf | hnp
        · exact absurd ⟨f, hf, hf_lt⟩ hnf
        · cases hpast : List.filter (fun c => decide (c.ends_at ≤ now_utc))
              (cycles.insertionSort (fun a b => a.starts_at ≤ b.starts_at)) with
          | nil => simp only [_pick_cycles, hfind, hfut, hpast]
          | cons p ps =>
              exfalso
              have hpmem : p ∈ List.filter (fun c => decide (c.ends_at ≤ now_utc))
                  (cycles.insertionSort (fun a b => a.starts_at ≤ b.starts_at)) := by
                rw [hpast]; exact List.mem_cons_self p ps
              have hp : p ∈ cycles := (List.mem_insertionSort _).mp (List.mem_filter.mp hpmem).1
              have hple : p.ends_at ≤ now_utc := by
                have := (List.mem_filter.mp hpmem).2; simpa using this
              exact hnp ⟨p, hp, (hends p hp).mp hple⟩

/-- Witness for C2 (amended) at a concrete input: instant 15 lies in the gap
between cycles `a` (`[0, 10]`) and `b` (`[20, 30]`). -/
theorem pick_cycles_fallback_witness :
    (∀ c ∈ [cycA, cycB], c.starts_at < c.ends_at) ∧
    (∀ c ∈ [cycA, cycB], ¬ (c.starts_at ≤ (15 : Int) ∧ (15 : Int) ≤ c.ends_at)) ∧
    (((∃ f ∈ [cycA, cycB], (15 : Int) < f.starts_at) ∧
        (∃ p ∈ [cycA, cycB], p.ends_at < (15 : Int)) →
      ∃ cur prev, _pick_cycles [cycA, cycB] 15 = .ok (cur, prev) ∧
        cur ∈ [cycA, cycB] ∧ (15 : Int) < cur.starts_at ∧
        (∀ c ∈ [cycA, cycB], (15 : Int) < c.starts_at → cur.starts_at ≤ c.starts_at) ∧
        prev ∈ [cycA, cycB] ∧ prev.ends_at < 15 ∧
        (∀ c ∈ [cycA, cycB], c.ends_at < (15 : Int) → c.ends_at ≤ prev.ends_at)) ∧
    ((¬ ∃ f ∈ [cycA, cycB], (15 : Int) < f.starts_at) ∨
        (¬ ∃ p ∈ [cycA, cycB], p.ends_at < (15 : Int)) →
      _pick_cycles [cycA, cycB] 15 =
        .error (str "Could not determine current/previous cycle from available cycles."))) :=
  ⟨by decide, by decide, pick_cycles_fallback [cycA, cycB] 15 (by decide) (by decide)⟩

/-- C3: under the invariant that each cycle starts strictly before it ends,
any pair returned by `_pick_cycles` has the previous cycle ending strictly
before the current cycle starts. -/
theorem pick_cycles_previous_before_current (cycles : List Cycle) (now_utc : Int)
    (_hinv : ∀ c ∈ cycles, c.starts_at < c.ends_at) :
    ∀ cur prev, _pick_cycles cycles now_utc = .ok (cur, prev) →
      prev.ends_at < cur.starts_at := by
  intro cur prev heq
  simp only [_pick_cycles] at heq
  cases hfind : List.find? (fun c => decide (c.starts_at ≤ now_utc) && decide (now_utc ≤ c.ends_at))
      (cycles.insertionSort (fun a b => a.starts_at ≤ b.starts_at)) with
  | none =>
      rw [hfind] at heq
      dsimp only at heq
      cases hfut : List.filter (fun c => decide (now_utc < c.starts_at))
          (cycles.insertionSort (fun a b => a.starts_at ≤ b.starts_at)) with
      | nil => rw [hfut] at heq; simp at heq
      | cons f fs =>
          cases hpast : List.filter (fun c => decide (c.ends_at ≤ now_utc))
              (cycles.insertionSort (fun a b => a.starts_at ≤ b.starts_at)) with
          | nil => rw [hfut, hpast] at heq; simp at heq
          | cons p ps =>
              rw [hfut, hpast] at heq
              simp only [Except.ok.injEq, Prod.mk.injEq] at heq
              obtain ⟨hcur, hprev⟩ := heq
              have hcur_in : cur ∈ List.filter (fun c => decide (now_utc < c.starts_at))
                  (cycles.insertionSort (fun a b => a.starts_at ≤ b.starts_at)) := by
                rw [hfut, ← hcur]; exact minByStartAux_mem fs f
              have hprev_in : prev ∈ List.filter (fun c => decide (c.ends_at ≤ now_utc))
                  (cycles.insertionSort (fun a b => a.starts_at ≤ b.starts_at)) := by
                rw [hpast, ← hprev]; exact maxByEndAux_mem ps p
              have h1 : now_utc < cur.starts_at := by
                have := (List.mem_filter.mp hcur_in).2; simpa using this
              have h2 : prev.ends_at ≤ now_utc := by
                have := (List.mem_filter.mp hprev_in).2; simpa using this
              exact lt_of_le_of_lt h2 h1
  | some current =>
      rw [hfind] at heq
      dsimp only at heq
      cases hfilt : List.filter (fun c => decide (c.ends_at < current.starts_at))
          (cycles.insertionSort (fun a b => a.starts_at ≤ b.starts_at)) with
      | nil => rw [hfilt] at heq; simp at heq
      | cons p ps =>
          rw [hfilt] at heq
          simp only [Except.ok.injEq, Prod.mk.injEq] at heq
          obtain ⟨hcur, hprev⟩ := heq
          have hprev_in : prev ∈ List.filter (fun c => decide (c.ends_at < current.starts_at))
              (cycles.insertionSort (fun a b => a.starts_at ≤ b.starts_at)) := by
            rw [hfilt, ← hprev]; exact maxByEndAux_mem ps p
          have := (List.mem_filter.mp hprev_in).2
          rw [← hcur]
          simpa using this

/-- Witness for C3 at a concrete input. -/
theorem pick_cycles_previous_before_current_witness :
    (∀ c ∈ [cycA, cycB], c.starts_at < c.ends_at) ∧
    (∀ cur prev, _pick_cycles [cycA, cycB] 25 = .ok (cur, prev) →
      prev.ends_at < cur.starts_at) :=
  ⟨by decide, pick_cycles_previous_before_current [cycA, cycB] 25 (by decide)⟩

/-- `models.IssueHistory`: a state-transition event on an issue. -/
structure IssueHistory where
  id : Str
  created_at : Int
  type : Option Str
  from_state : Option Str
  to_state : Option Str
deriving DecidableEq, Repr

/-- Seconds in `timedelta(weeks=2)` (instants are modelled in seconds). -/
def twoWeeksSeconds : Int := 14 * 24 * 60 * 60

/-- `draft.draft_weekly_update` (lines 200-204): the latest creation instant
among history events whose to-state is non-null, `None` when there are none
(`max((h.created_at for h in state_changes), default=None)`). -/
def last_state_change (history : List IssueHistory) : Option Int :=
  ((history.filter (fun h => h.to_state.isSome)).map (fun h => h.created_at)).max?

/-- `draft.draft_weekly_update` (line 205): an issue is stale when its last
state change exists and is strictly older than the reference instant minus
two weeks. -/
def is_stale (now_utc : Int) (history : List IssueHistory) : Bool :=
  match last_state_change history with
  | none => false
  | some t => decide (t < now_utc - twoWeeksSeconds)

example :
    is_stale 10000000 [⟨str "h1", 1, none, none, some (str "Done")⟩] = true := by decide

example :
    is_stale 10000000 [⟨str "h1", 1, none, none, none⟩] = false := by decide

/-- C4: `last_state_change` is absent exactly when no history event has a
non-null to-state, otherwise it is the latest creation instant among such
events; `is_stale` holds iff a last state change exists strictly before the
reference instant minus 14 days, and a change exactly 14 days prior is not
stale. -/
theorem last_state_change_and_staleness (now_utc : Int) (history : List IssueHistory) :
    (last_state_change history = none ↔ ∀ h ∈ history, h.to_state = none) ∧
    (∀ t, last_state_change history = some t →
      (∃ h ∈ history, h.to_state.isSome ∧ h.created_at = t) ∧
      ∀ h ∈ history, h.to_state.isSome → h.created_at ≤ t) ∧
    (is_stale now_utc history = true ↔
      ∃ t, last_state_change history = some t ∧ t < now_utc - twoWeeksSeconds) ∧
    (last_state_change history = some (now_utc - twoWeeksSeconds) →
      is_stale now_utc history = false) := by
  refine ⟨?_, ?_, ?_, ?_⟩
  · rw [last_state_change, List.max?_eq_none_iff, List.map_eq_nil_iff, List.filter_eq_nil_iff]
    constructor
    · intro hall h hmem
      have := hall h hmem
      simp only [Option.isSome_iff_exists] at this
      cases hts : h.to_state with
      | none => rfl
      | some s => exact absurd ⟨s, hts⟩ this
    · intro hall h hmem
      simp [hall h hmem]
  · intro t hmax
    have hmem : t ∈ (history.filter (fun h => h.to_state.isSome)).map (fun h => h.created_at) :=
      List.max?_mem (fun a b => max_choice a b) hmax
    obtain ⟨h, hh, hht⟩ := List.mem_map.mp hmem
    have hle := List.max?_le_iff (fun a b c => max_le_iff) hmax (x := t)
    constructor
    · exact ⟨h, (List.mem_filter.mp hh).1, by simpa using (List.mem_filter.mp hh).2, hht⟩
    · intro h' hmem' hsome'
      have : h'.created_at ∈ (history.filter (fun h => h.to_state.isSome)).map
          (fun h => h.created_at) :=
        List.mem_map.mpr ⟨h', List.mem_filter.mpr ⟨hmem', by simpa using hsome'⟩, rfl⟩
      exact (hle.mp le_rfl) _ this
  · rw [is_stale]
    cases hlsc : last_state_change history with
    | none => simp
    | some t => simp [hlsc]
  · intro hlsc
    rw [is_stale, hlsc]
    simp

theorem head?_dropWhile_not (p : Char → Bool) (l : Str) :
    ∀ c, ((l.dropWhile p).head? = some c) → p c = false := by
  induction l with
  | nil => intro c h; simp at h
  | cons a as ih =>
      intro c h
      rw [List.dropWhile_cons] at h
      by_cases ha : p a = true
      · rw [if_pos ha] at h; exact ih c h
      · rw [if_neg ha] at h
        simp only [List.head?_cons, Option.some.injEq] at h
        subst h
        exact Bool.eq_false_iff.mpr ha

theorem dropWhile_eq_self_of_head (p : Char → Bool) (l : Str)
    (h : ∀ c, l.head? = some c → p c = false) : l.dropWhile p = l := by
  cases l with
  | nil => rfl
  | cons a as =>
      rw [List.dropWhile_cons, if_neg]
      simp [h a rfl]

theorem pyRstrip_front (s : Str) : pyRstrip s <+: s := by
  rw [pyRstrip]
  have h := List.dropWhile_suffix (l := s.reverse) Char.isWhitespace
  have := List.reverse_prefix.mpr h
  simpa using this

theorem pyRstrip_length_le (s : Str) : (pyRstrip s).length ≤ s.length :=
  (pyRstrip_front s).length_le

theorem pyLstrip_head (s : Str) :
    ∀ c, (pyLstrip s).head? = some c → c.isWhitespace = false :=
  head?_dropWhile_not Char.isWhitespace s

theorem pyStrip_head (s : Str) :
    ∀ c, (pyStrip s).head? = some c → c.isWhitespace = false := by
  intro c h
  rw [pyStrip] at h
  rcases pyRstrip_front (pyLstrip s) with ⟨r, hr⟩
  cases hp : pyRstrip (pyLstrip s) with
  | nil => rw [hp] at h; simp at h
  | cons a as =>
      rw [hp] at h hr
      simp only [List.head?_cons, Option.some.injEq] at h
      subst h
      exact pyLstrip_head s a (by rw [← hr]; rfl)

theorem pyRstrip_eq_self_of_last (s : Str)
    (h : ∀ c, s.reverse.head? = some c → c.isWhitespace = false) : pyRstrip s = s := by
  rw [pyRstrip, dropWhile_eq_self_of_head Char.isWhitespace s.reverse h, List.reverse_reverse]

theorem pyRstrip_last (s : Str) :
    ∀ c, (pyRstrip s).reverse.head? = some c → c.isWhitespace = false := by
  intro c h
  rw [pyRstrip, List.reverse_reverse] at h
  exact head?_dropWhile_not Char.isWhitespace s.reverse c h

theorem pyRstrip_idem (s : Str) : pyRstrip (pyRstrip s) = pyRstrip s :=
  pyRstrip_eq_self_of_last _ (pyRstrip_last s)

theorem pyLstrip_eq_self_of_head (s : Str)
    (h : ∀ c, s.head? = some c → c.isWhitespace = false) : pyLstrip s = s :=
  dropWhile_eq_self_of_head Char.isWhitespace s h

theorem pyStrip_idem (s : Str) : pyStrip (pyStrip s) = pyStrip s := by
  have h1 : pyLstrip (pyStrip s) = pyStrip s :=
    pyLstrip_eq_self_of_head _ (pyStrip_head s)
  rw [pyStrip, h1, pyStrip, pyRstrip_idem]

theorem pyStrip_length_le (s : Str) : (pyStrip s).length ≤ s.length :=
  le_trans (pyRstrip_length_le _) (by simpa [pyLstrip] using (List.dropWhile_suffix (l := s) Char.isWhitespace).length_le)

/-- `draft._truncate`: strip the text (the `text or ""` guard is a no-op for a
string input), return it unchanged when within the limit, otherwise keep
`max_chars - 1` characters, right-strip them, and append an ellipsis. -/
def _truncate (text : Str) (max_chars : Nat) : Str :=
  let text' := pyStrip text
  if text'.length ≤ max_chars then text'
  else pyRstrip (text'.take (max_chars - 1)) ++ ['…']

example : _truncate (str "  hi  ") 500 = str "hi" := by decide

example : _truncate (str "abcdef") 5 = str "abcd" ++ ['…'] := by decide

example : _truncate (str "abc d f") 6 = str "abc d" ++ ['…'] := by decide

theorem isPrefix_head?_eq {u t : Str} (h : u <+: t) (hne : u ≠ []) : t.head? = u.head? := by
  obtain ⟨r, rfl⟩ := h
  cases u with
  | nil => exact absurd rfl hne
  | cons a as => rfl

/-- A 501-character body whose 499th character region ends in a space:
strip keeps it whole, but truncation right-strips the 499-character prefix. -/
def cexBody : Str := List.replicate 498 'a' ++ [' ', 'b', 'b']

set_option maxRecDepth 4000 in
/-- C5 fails as stated: this 501-character body does not truncate to its
first 499 characters plus an ellipsis, and the output length is 499, not
500, because the source right-strips the 499-character prefix before
appending the ellipsis. -/
theorem truncate_501_counterexample :
    cexBody.length = 501 ∧
    _truncate cexBody 500 ≠ cexBody.take 499 ++ ['…'] ∧
    (_truncate cexBody 500).length = 499 := by decide

/-- C5 (amended): with limit 500, a body whose trimmed length is at most 500
is returned trimmed but otherwise unchanged; a 501-character body equal to
its trimmed form truncates to its first 499 characters right-stripped of
trailing whitespace plus an ellipsis, and the total length is exactly 500
when that 499-character prefix carries no trailing whitespace. -/
theorem truncate_limit_500 :
    (∀ body : Str, (pyStrip body).length ≤ 500 → _truncate body 500 = pyStrip body) ∧
    (∀ body : Str, body.length = 501 → pyStrip body = body →
      _truncate body 500 = pyRstrip (body.take 499) ++ ['…'] ∧
      (pyRstrip (body.take 499) = body.take 499 →
        (_truncate body 500).length = 500)) := by
  constructor
  · intro body h
    rw [_truncate]
    simp [h]
  · intro body hlen hstrip
    have hgt : ¬ (pyStrip body).length ≤ 500 := by rw [hstrip, hlen]; omega
    have he : _truncate body 500 = pyRstrip (body.take 499) ++ ['…'] := by
      rw [_truncate]
      simp only [hstrip]
      rw [if_neg (by rw [hlen]; omega)]
    refine ⟨he, ?_⟩
    intro hr
    rw [he, hr, List.length_append, List.length_take, hlen]
    rfl

/-- Witness for C5 (amended) at concrete inputs: a short padded body is
returned trimmed, and a 501-character whitespace-free body truncates to
exactly 500 characters ending in an ellipsis. -/
theorem truncate_limit_500_witness :
    (pyStrip (str "  hi  ")).length ≤ 500 ∧
    _truncate (str "  hi  ") 500 = pyStrip (str "  hi  ") ∧
    (List.replicate 501 'b' : Str).length = 501 ∧
    pyStrip (List.replicate 501 'b') = List.replicate 501 'b' ∧
    _truncate (List.replicate 501 'b') 500 =
      pyRstrip ((List.replicate 501 'b' : Str).take 499) ++ ['…'] ∧
    (_truncate (List.replicate 501 'b') 500).length = 500 :=
  ⟨by decide, truncate_limit_500.1 _ (by decide),
   by set_option maxRecDepth 4000 in decide,
   by set_option maxRecDepth 4000 in decide,
   (truncate_limit_500.2 _ (by set_option maxRecDepth 4000 in decide)
     (by set_option maxRecDepth 4000 in decide)).1,
   (truncate_limit_500.2 _ (by set_option maxRecDepth 4000 in decide)
     (by set_option maxRecDepth 4000 in decide)).2
     (by set_option maxRecDepth 4000 in decide)⟩

/-- C10: with limit 500 the truncation output never exceeds 500 characters,
for every input string, and truncation is idempotent. -/
theorem truncate_bounded_idempotent (s : Str) :
    (_truncate s 500).length ≤ 500 ∧ _truncate (_truncate s 500) 500 = _truncate s 500 := by
  by_cases h : (pyStrip s).length ≤ 500
  · have he : _truncate s 500 = pyStrip s := by rw [_truncate]; simp [h]
    constructor
    · rw [he]; exact h
    · have h2 : _truncate (pyStrip s) 500 = pyStrip s := by
        rw [_truncate]
        simp only [pyStrip_idem]
        rw [if_pos h]
      rw [he, h2]
  · have he : _truncate s 500 = pyRstrip ((pyStrip s).take 499) ++ ['…'] := by
      rw [_truncate]
      rw [if_neg h]
    have hlen : (_truncate s 500).length ≤ 500 := by
      rw [he, List.length_append]
      have h1 : (pyRstrip ((pyStrip s).take 499)).length ≤ 499 :=
        le_trans (pyRstrip_length_le _) (by simp)
      simp only [List.length_cons, List.length_nil]
      omega
    have hl : pyLstrip (pyRstrip ((pyStrip s).take 499) ++ ['…']) =
        pyRstrip ((pyStrip s).take 499) ++ ['…'] := by
      apply pyLstrip_eq_self_of_head
      intro c hc
      cases hrs : pyRstrip ((pyStrip s).take 499) with
      | nil =>
          rw [hrs] at hc
          simp only [List.nil_append, List.head?_cons, Option.some.injEq] at hc
          subst hc
          decide
      | cons a as =>
          rw [hrs] at hc
          simp only [List.cons_append, List.head?_cons, Option.some.injEq] at hc
          subst hc
          have hpre : (a :: as : Str) <+: pyStrip s := by
            rw [← hrs]
            exact (pyRstrip_front _).trans (List.take_prefix 499 (pyStrip s))
          have hhead := isPrefix_head?_eq hpre (by simp)
          exact pyStrip_head s a (by rw [hhead]; rfl)
    have hr : pyRstrip (pyRstrip ((pyStrip s).take 499) ++ ['…']) =
        pyRstrip ((pyStrip s).take 499) ++ ['…'] := by
      apply pyRstrip_eq_self_of_last
      intro c hc
      rw [List.reverse_append] at hc
      simp only [List.reverse_cons, List.reverse_nil, List.nil_append, List.cons_append,
        List.head?_cons, Option.some.injEq] at hc
      subst hc
      decide
    have hstrip_r : pyStrip (_truncate s 500) = _truncate s 500 := by
      rw [he, pyStrip, hl, hr]
    refine ⟨hlen, ?_⟩
    rw [_truncate]
    simp only [hstrip_r]
    rw [if_pos hlen]

/-- `models.Project`: id, name, optional URL, optional status label. -/
structure Project where
  id : Str
  name : Str
  url : Option Str
  status_name : Option Str
deriving DecidableEq, Repr

/-- First query shape of `LinearClient.list_team_projects` (status field
named `status`). -/
def status_shape : Str × Str :=
  (str "status",
   str "query TeamProjects($teamId: String!, $first: Int!, $after: String) \x7b team(id: $teamId) \x7b projects(first: $first, after: $after) \x7b nodes \x7b id name url status \x7b name \x7d \x7d pageInfo \x7b hasNextPage endCursor \x7d \x7d \x7d \x7d")

/-- Second query shape of `LinearClient.list_team_projects` (status field
named `projectStatus`). -/
def projectStatus_shape : Str × Str :=
  (str "projectStatus",
   str "query TeamProjects($teamId: String!, $first: Int!, $after: String) \x7b team(id: $teamId) \x7b projects(first: $first, after: $after) \x7b nodes \x7b id name url projectStatus \x7b name \x7d \x7d pageInfo \x7b hasNextPage endCursor \x7d \x7d \x7d \x7d")

/-- The ordered list of `(field_name, query)` shapes tried by
`LinearClient.list_team_projects`; Linear's project status field naming can
vary (`status` vs `projectStatus`). -/
def project_query_shapes : List (Str × Str) := [status_shape, projectStatus_shape]

/-- The fallback loop of `LinearClient.list_team_projects`: `run_shape`
abstracts the paginated fetch-and-parse executed with one query shape (a
raised exception appears as `.error`); shapes are tried in order with the
first success returned, and when every shape fails the single combined
error message interpolates the last attempt's error (`last_err`). -/
def try_project_queries (run_shape : Str × Str → Except Str (List Project)) :
    List (Str × Str) → Option Str → Except Str (List Project)
  | [], last_err =>
      .error (str "Failed to query team projects (status field mismatch?): " ++
        (match last_err with | some e => e | none => str "None"))
  | q :: rest, _ =>
      match run_shape q with
      | .ok projects => .ok projects
      | .error e => try_project_queries run_shape rest (some e)

/-- `LinearClient.list_team_projects`, parameterized by the per-shape
paginated fetch. -/
def list_team_projects (run_shape : Str × Str → Except Str (List Project)) :
    Except Str (List Project) :=
  try_project_queries run_shape project_query_shapes none

/-- A gateway in which both query shapes fail, with distinct errors. -/
def run_both_fail : Str × Str → Except Str (List Project) :=
  fun q => if q.1 = str "status" then .error (str "E1") else .error (str "E2")

/-- C8 fails as stated on its "naming both attempts" part: when the first
shape fails with error `E1` and the second with `E2`, the combined error
contains the second attempt's error but names neither the first attempt's
error `E1` nor the second field name `projectStatus`. -/
theorem list_team_projects_error_counterexample :
    list_team_projects run_both_fail =
      .error (str "Failed to query team projects (status field mismatch?): E2") ∧
    ¬ (str "E1" <:+: str "Failed to query team projects (status field mismatch?): E2") ∧
    ¬ (str "projectStatus" <:+:
        str "Failed to query team projects (status field mismatch?): E2") := by
  refine ⟨by rfl, by decide, by decide⟩

/-- C8 (amended): `list_team_projects` attempts the `status` shape first; on
any failure it falls back to the `projectStatus` shape, short-circuiting on
the first success; when both shapes fail it returns a single combined error
carrying the second (last) attempt's error. -/
theorem list_team_projects_fallback (run_shape : Str × Str → Except Str (List Project)) :
    list_team_projects run_shape =
      match run_shape status_shape with
      | .ok ps => .ok ps
      | .error _ =>
        match run_shape projectStatus_shape with
        | .ok ps => .ok ps
        | .error e2 =>
            .error (str "Failed to query team projects (status field mismatch?): " ++ e2) := by
  rw [list_team_projects, project_query_shapes]
  cases h1 : run_shape status_shape with
  | ok ps => simp only [try_project_queries, h1]
  | error e1 =>
      cases h2 : run_shape projectStatus_shape with
      | ok ps => simp only [try_project_queries, h1, h2]
      | error e2 => simp only [try_project_queries, h1, h2]

/-- The optional-health read of `LinearClient.get_project_health`, as a
function of the `graphql` call's outcome: an error, or the optional project
object carrying an optional health label
(`data.get("project", {}).get("health")`). -/
def get_project_health (gql_result : Except Str (Option (Option Str))) : Option Str :=
  match gql_result with
  | .error _ => none
  | .ok none => none
  | .ok (some health) => health

/-- C9: `get_project_health` never raises — a failed lookup degrades to
`none`, and a successful lookup returns the project's health label, or
`none` when the project or its health is unset. -/
theorem get_project_health_never_raises :
    (∀ e : Str, get_project_health (.error e) = none) ∧
    get_project_health (.ok none) = none ∧
    (∀ health : Option Str, get_project_health (.ok (some health)) = health) :=
  ⟨fun _ => rfl, rfl, fun _ => rfl⟩

/-- Issue fact block assembled by `draft_weekly_update`, restricted to the
fields the deterministic renderer reads. -/
structure IssueFact where
  key : Option Str
  title : Str
  state : Option Str
  assignee : Option Str
deriving DecidableEq, Repr

/-- Per-project block of the FactDocument (renderer-relevant fields). -/
structure ProjectFacts where
  id : Str
  name : Str
  url : Option Str
  status : Option Str
  last_week_issues : List IssueFact
  this_week_issues : List IssueFact
deriving DecidableEq, Repr

/-- FactDocument (renderer-relevant fields). -/
structure Facts where
  team_name : Str
  generated_at : Str
  projects : List ProjectFacts
deriving DecidableEq, Repr

/-- One issue bullet of `_facts_to_markdown`:
`- key: title (state, assignee)`, with Python-truthiness defaults
`ISSUE` / `Unknown` / `Unassigned`. -/
def issue_line (i : IssueFact) : Str :=
  str "- " ++ orDefault i.key (str "ISSUE") ++ str ": " ++ i.title ++
    str " (" ++ orDefault i.state (str "Unknown") ++ str ", " ++
    orDefault i.assignee (str "Unassigned") ++ str ")"

/-- The bullet lines for one issue list: `- No updates` when empty. -/
def issue_block (issues : List IssueFact) : List Str :=
  if issues = [] then [str "- No updates"] else issues.map issue_line

/-- The status line under a project heading; a link is rendered only when
the URL is truthy. -/
def status_line (p : ProjectFacts) : Str :=
  match p.url with
  | some u =>
      if u = [] then str "*" ++ orDefault p.status (str "Unknown") ++ str "*"
      else str "*" ++ orDefault p.status (str "Unknown") ++ str "* — [Project Link](" ++
        u ++ str ")"
  | none => str "*" ++ orDefault p.status (str "Unknown") ++ str "*"

/-- The lines of one project section, headline excluded. -/
def project_body (p : ProjectFacts) : List Str :=
  status_line p :: str "" :: str "**Last Week**" ::
    (issue_block p.last_week_issues ++
      (str "" :: str "**This Week**" :: (issue_block p.this_week_issues ++ [str ""])))

/-- The lines of one project section of `_facts_to_markdown`. -/
def project_lines (p : ProjectFacts) : List Str :=
  (str "## " ++ p.name) :: project_body p

/-- `draft._facts_to_markdown` at line granularity: team title, blank line,
generation stamp, blank line, then one section per project.  `fmt` abstracts
the IST-timestamp formatter `_fmt`; the final `"\n".join(...).rstrip()+"\n"`
serialization is the inverse of line-splitting for newline-free fields and
is left implicit. -/
def _facts_to_markdown (fmt : Str → Str) (facts : Facts) : List Str :=
  (str "# Weekly Update (" ++ facts.team_name ++ str ")") :: str "" ::
    (str "Generated: " ++ fmt facts.generated_at) :: str "" ::
    facts.projects.flatMap project_lines

/-- The single-character dash replacements of `cli._normalize_name`
(non-breaking hyphen, en dash, em dash to ASCII hyphen). -/
def collapse_dash (c : Char) : Char :=
  if c = '‑' then '-' else if c = '–' then '-' else if c = '—' then '-' else c

/-- `cli._normalize_name`: collapse Unicode dash variants to a plain hyphen,
then trim whitespace. -/
def _normalize_name (name : Str) : Str := pyStrip (name.map collapse_dash)

/-- A line matched by the section-splitting regex `^## (.+?)$` of
`cli._parse_project_updates`: literal `## ` followed by at least one
character. -/
def isHeadingLine (l : Str) : Bool :=
  match l with
  | c1 :: c2 :: c3 :: rest => c1 == '#' && c2 == '#' && c3 == ' ' && !rest.isEmpty
  | _ => false

/-- The text the regex captures from a heading line (the rest of the line
after `## `). -/
def headingText (l : Str) : Str := l.drop 3

/-- Python `"\n".join(lines)`. -/
def joinLines : List Str → Str
  | [] => []
  | [l] => l
  | l :: l2 :: rest => l ++ '\n' :: joinLines (l2 :: rest)

/-- Inside a section: accumulate body lines until the next heading. -/
def sectionsAux (ls : List Str) (name : Str) (acc : List Str) : List (Str × List Str) :=
  match ls with
  | [] => [(name, acc.reverse)]
  | l :: rest =>
      if isHeadingLine l then (name, acc.reverse) :: sectionsAux rest (headingText l) []
      else sectionsAux rest name (l :: acc)

/-- The `(heading, body)` pairs produced by splitting a document on `## `
headings, the preamble before the first heading discarded — the line-level
counterpart of `re.split(r"^## (.+?)$", markdown, flags=re.MULTILINE)`
followed by the pairing loop. -/
def sectionsOf (ls : List Str) : List (Str × List Str) :=
  match ls with
  | [] => []
  | l :: rest =>
      if isHeadingLine l then sectionsAux rest (headingText l) []
      else sectionsOf rest

/-- One parsed per-project update (`project_id`, `project_name`, `body`). -/
structure ProjectUpdate where
  project_id : Str
  project_name : Str
  body : Str
deriving DecidableEq, Repr

/-- The `name_to_info` dictionary of `cli._parse_project_updates`: keys are
normalized project names, later projects overwrite earlier ones, so a
lookup returns the last matching project's id and original name. -/
def name_to_info (projects : List ProjectFacts) (key : Str) : Option (Str × Str) :=
  (projects.reverse.find? (fun p => decide (_normalize_name p.name = key))).map
    (fun p => (p.id, p.name))

/-- The per-section emission decision of `cli._parse_project_updates`:
normalize the stripped heading, look it up, and emit only when a project
matches and the stripped body is non-empty. -/
def emit_section (projects : List ProjectFacts) (sec : Str × List Str) : Option ProjectUpdate :=
  let content := pyStrip (joinLines sec.2)
  match name_to_info projects (_normalize_name (pyStrip sec.1)) with
  | some (pid, pname) => if content = [] then none else some ⟨pid, pname, content⟩
  | none => none

/-- `cli._parse_project_updates` on a line-level document. -/
def _parse_project_updates (doc : List Str) (projects : List ProjectFacts) :
    List ProjectUpdate :=
  (sectionsOf doc).filterMap (emit_section projects)

theorem collapse_dash_ws :
    (Char.isWhitespace ∘ collapse_dash) = Char.isWhitespace := by
  funext c
  simp only [Function.comp_apply, collapse_dash]
  split
  · next h => subst h; decide
  · split
    · next h => subst h; decide
    · split
      · next h => subst h; decide
      · rfl

theorem pyLstrip_map_collapse (s : Str) :
    pyLstrip (s.map collapse_dash) = (pyLstrip s).map collapse_dash := by
  rw [pyLstrip, pyLstrip, List.dropWhile_map, collapse_dash_ws]

theorem pyRstrip_map_collapse (s : Str) :
    pyRstrip (s.map collapse_dash) = (pyRstrip s).map collapse_dash := by
  rw [pyRstrip, pyRstrip, ← List.map_reverse, List.dropWhile_map, collapse_dash_ws,
    List.map_reverse]

theorem pyStrip_map_collapse (s : Str) :
    pyStrip (s.map collapse_dash) = (pyStrip s).map collapse_dash := by
  rw [pyStrip, pyStrip, pyLstrip_map_collapse, pyRstrip_map_collapse]

theorem normalize_pyStrip (h : Str) : _normalize_name (pyStrip h) = _normalize_name h := by
  rw [_normalize_name, _normalize_name, ← pyStrip_map_collapse, pyStrip_idem]

theorem isHeadingLine_cons_ne (a : Char) (l : Str) (ha : (a == '#') = false) :
    isHeadingLine (a :: l) = false := by
  cases l with
  | nil => rfl
  | cons b bs =>
      cases bs with
      | nil => rfl
      | cons c cs => simp [isHeadingLine, ha]

theorem isHeadingLine_marker (name : Str) :
    isHeadingLine (str "## " ++ name) = !name.isEmpty := by
  show isHeadingLine ('#' :: '#' :: ' ' :: name) = !name.isEmpty
  simp [isHeadingLine]

theorem headingText_marker (name : Str) : headingText (str "## " ++ name) = name := rfl

theorem isHeadingLine_cons_cons (a b : Char) (l : Str) (hb : (b == '#') = false) :
    isHeadingLine (a :: b :: l) = false := by
  cases l with
  | nil => rfl
  | cons c cs => simp [isHeadingLine, hb]

theorem status_line_head (p : ProjectFacts) : (status_line p).head? = some '*' := by
  rw [status_line]
  cases p.url with
  | none => rfl
  | some u =>
      dsimp only
      by_cases hu : u = []
      · rw [if_pos hu]; rfl
      · rw [if_neg hu]; rfl

theorem not_heading_of_head?_star (l : Str) (h : l.head? = some '*') :
    isHeadingLine l = false := by
  cases l with
  | nil => simp at h
  | cons a as =>
      simp only [List.head?_cons, Option.some.injEq] at h
      subst h
      exact isHeadingLine_cons_ne '*' as (by decide)

theorem issue_block_not_heading (issues : List IssueFact) :
    ∀ l ∈ issue_block issues, isHeadingLine l = false := by
  intro l hl
  rw [issue_block] at hl
  by_cases hi : issues = []
  · rw [if_pos hi] at hl
    simp only [List.mem_singleton] at hl
    subst hl
    decide
  · rw [if_neg hi] at hl
    obtain ⟨i, _, rfl⟩ := List.mem_map.mp hl
    exact isHeadingLine_cons_ne '-' _ (by decide)

theorem project_body_not_heading (p : ProjectFacts) :
    ∀ l ∈ project_body p, isHeadingLine l = false := by
  intro l hl
  rw [project_body] at hl
  rcases List.mem_cons.mp hl with rfl | hl
  · exact not_heading_of_head?_star _ (status_line_head p)
  rcases List.mem_cons.mp hl with rfl | hl
  · rfl
  rcases List.mem_cons.mp hl with rfl | hl
  · decide
  rcases List.mem_append.mp hl with hl | hl
  · exact issue_block_not_heading _ l hl
  rcases List.mem_cons.mp hl with rfl | hl
  · rfl
  rcases List.mem_cons.mp hl with rfl | hl
  · decide
  rcases List.mem_append.mp hl with hl | hl
  · exact issue_block_not_heading _ l hl
  · simp only [List.mem_singleton] at hl
    subst hl
    rfl

theorem sectionsOf_cons_not_heading (l : Str) (ls : List Str)
    (h : isHeadingLine l = false) : sectionsOf (l :: ls) = sectionsOf ls := by
  rw [sectionsOf]
  simp [h]

theorem sectionsAux_no_heading (body : List Str)
    (hb : ∀ l ∈ body, isHeadingLine l = false) :
    ∀ rest name acc, sectionsAux (body ++ rest) name acc =
      sectionsAux rest name (body.reverse ++ acc) := by
  induction body with
  | nil => intro rest name acc; simp
  | cons l bs ih =>
      intro rest name acc
      rw [List.cons_append, sectionsAux, if_neg]
      · rw [ih (fun x hx => hb x (List.mem_cons_of_mem l hx)) rest name (l :: acc)]
        congr 1
        simp
      · simp [hb l (List.mem_cons_self l bs)]

theorem sectionsAux_flatMap (ps : List ProjectFacts) :
    ∀ name acc, (∀ p ∈ ps, p.name ≠ []) →
      sectionsAux (ps.flatMap project_lines) name acc =
        (name, acc.reverse) :: ps.map (fun p => (p.name, project_body p)) := by
  induction ps with
  | nil => intro name acc _; simp [sectionsAux]
  | cons p ps ih =>
      intro name acc hne
      rw [List.flatMap_cons, project_lines, List.cons_append, sectionsAux, if_pos]
      · rw [headingText_marker,
          sectionsAux_no_heading (project_body p) (project_body_not_heading p)]
        rw [ih p.name ((project_body p).reverse ++ []) (fun q hq => hne q (List.mem_cons_of_mem p hq))]
        simp
      · rw [isHeadingLine_marker]
        simp [hne p (List.mem_cons_self p ps)]

theorem sectionsOf_flatMap (ps : List ProjectFacts) (hne : ∀ p ∈ ps, p.name ≠ []) :
    sectionsOf (ps.flatMap project_lines) =
      ps.map (fun p => (p.name, project_body p)) := by
  cases ps with
  | nil => rfl
  | cons p ps =>
      rw [List.flatMap_cons, project_lines, List.cons_append, sectionsOf, if_pos]
      · rw [headingText_marker,
          sectionsAux_no_heading (project_body p) (project_body_not_heading p)]
        rw [sectionsAux_flatMap ps p.name ((project_body p).reverse ++ [])
            (fun q hq => hne q (List.mem_cons_of_mem p hq))]
        simp
      · rw [isHeadingLine_marker]
        simp [hne p (List.mem_cons_self p ps)]

theorem sectionsOf_preamble (t g : Str) (rest : List Str) :
    sectionsOf ((str "# Weekly Update (" ++ t ++ str ")") :: str "" ::
      (str "Generated: " ++ g) :: str "" :: rest) = sectionsOf rest := by
  have h1 : isHeadingLine (str "# Weekly Update (" ++ t ++ str ")") = false := by
    show isHeadingLine ('#' :: ' ' :: ((str "Weekly Update (" ++ t) ++ str ")")) = false
    exact isHeadingLine_cons_cons '#' ' ' _ (by decide)
  have h3 : isHeadingLine (str "Generated: " ++ g) = false := by
    show isHeadingLine ('G' :: (str "enerated: " ++ g)) = false
    exact isHeadingLine_cons_ne 'G' _ (by decide)
  rw [sectionsOf_cons_not_heading _ _ h1,
    sectionsOf_cons_not_heading (str "") _ (by decide),
    sectionsOf_cons_not_heading _ _ h3,
    sectionsOf_cons_not_heading (str "") _ (by decide)]

theorem sectionsOf_render (facts : Facts) (fmt : Str → Str)
    (hne : ∀ p ∈ facts.projects, p.name ≠ []) :
    sectionsOf (_facts_to_markdown fmt facts) =
      facts.projects.map (fun p => (p.name, project_body p)) := by
  rw [_facts_to_markdown, sectionsOf_preamble]
  exact sectionsOf_flatMap facts.projects hne

theorem joinLines_cons_head (a : Str) (rest : List Str) (ha : a ≠ []) :
    (joinLines (a :: rest)).head? = a.head? := by
  cases rest with
  | nil => rfl
  | cons b bs =>
      show (a ++ '\n' :: joinLines (b :: bs)).head? = a.head?
      cases a with
      | nil => exact absurd rfl ha
      | cons x xs => rfl

theorem pyStrip_ne_nil_of_head_star (s : Str) (h : s.head? = some '*') :
    pyStrip s ≠ [] := by
  cases s with
  | nil => simp at h
  | cons a as =>
      simp only [List.head?_cons, Option.some.injEq] at h
      subst h
      rw [pyStrip, pyLstrip_eq_self_of_head]
      · intro hc
        rw [pyRstrip] at hc
        rw [List.reverse_eq_nil_iff, List.dropWhile_eq_nil_iff] at hc
        have := hc '*' (by simp)
        exact absurd this (by decide)
      · intro c hc
        simp only [List.head?_cons, Option.some.injEq] at hc
        subst hc
        decide

theorem status_line_ne_nil (p : ProjectFacts) : status_line p ≠ [] := by
  intro h
  have := status_line_head p
  rw [h] at this
  simp at this

theorem pyStrip_join_project_body_ne (p : ProjectFacts) :
    pyStrip (joinLines (project_body p)) ≠ [] := by
  apply pyStrip_ne_nil_of_head_star
  rw [project_body, joinLines_cons_head _ _ (status_line_ne_nil p)]
  exact status_line_head p

theorem find?_eq_some_of_unique {α : Type _} (pred : α → Bool) (l : List α) (a : α)
    (ha : a ∈ l) (hpa : pred a = true) (huniq : ∀ b ∈ l, pred b = true → b = a) :
    l.find? pred = some a := by
  induction l with
  | nil => simp at ha
  | cons c cs ih =>
      by_cases hc : pred c = true
      · rw [List.find?_cons_of_pos _ hc, huniq c (List.mem_cons_self c cs) hc]
      · rw [List.find?_cons_of_neg _ hc]
        rcases List.mem_cons.mp ha with h1 | h1
        · subst h1; exact absurd hpa hc
        · exact ih h1 (fun b hb hpb => huniq b (List.mem_cons_of_mem c hb) hpb)

theorem name_to_info_self (projects : List ProjectFacts) (p : ProjectFacts)
    (hmem : p ∈ projects)
    (hnodup : (projects.map (fun q => _normalize_name q.name)).Nodup) :
    name_to_info projects (_normalize_name p.name) = some (p.id, p.name) := by
  rw [name_to_info,
    find?_eq_some_of_unique _ _ p (List.mem_reverse.mpr hmem) (by simp)
      (fun b hb hpb => List.inj_on_of_nodup_map hnodup (List.mem_reverse.mp hb) hmem
        (by simpa using hpb))]
  rfl

theorem filterMap_eq_map_of_some {α β : Type _} (f : α → Option β) (g : α → β)
    (l : List α) (h : ∀ x ∈ l, f x = some (g x)) : l.filterMap f = l.map g := by
  induction l with
  | nil => rfl
  | cons a as ih =>
      rw [List.filterMap_cons, h a (List.mem_cons_self a as), List.map_cons,
        ih (fun x hx => h x (List.mem_cons_of_mem a hx))]

theorem emit_section_render (projects : List ProjectFacts) (p : ProjectFacts)
    (hmem : p ∈ projects)
    (hnodup : (projects.map (fun q => _normalize_name q.name)).Nodup) :
    emit_section projects (p.name, project_body p) =
      some ⟨p.id, p.name, pyStrip (joinLines (project_body p))⟩ := by
  rw [emit_section]
  dsimp only
  rw [normalize_pyStrip, name_to_info_self projects p hmem hnodup]
  dsimp only
  rw [if_neg (pyStrip_join_project_body_ne p)]

/-- C6 (amended): rendering a FactDocument whose project names are non-empty
and pairwise distinct after dash-and-whitespace normalization, and routing
the Markdown back, recovers exactly one section per project, in order and
keyed to the correct project id and name. -/
theorem render_route_roundtrip (facts : Facts) (fmt : Str → Str)
    (hnodup : (facts.projects.map (fun p => _normalize_name p.name)).Nodup)
    (hne : ∀ p ∈ facts.projects, p.name ≠ []) :
    (_parse_project_updates (_facts_to_markdown fmt facts) facts.projects).map
        (fun u => (u.project_id, u.project_name)) =
      facts.projects.map (fun p => (p.id, p.name)) := by
  have hfm : List.filterMap (emit_section facts.projects ∘ fun p => (p.name, project_body p))
      facts.projects =
      facts.projects.map
        (fun p => (⟨p.id, p.name, pyStrip (joinLines (project_body p))⟩ : ProjectUpdate)) := by
    apply filterMap_eq_map_of_some
    intro p hp
    show emit_section facts.projects (p.name, project_body p) = _
    exact emit_section_render facts.projects p hp hnodup
  rw [_parse_project_updates, sectionsOf_render facts fmt hne, List.filterMap_map, hfm,
    List.map_map]
  exact List.map_congr_left (fun p _ => rfl)

/-- Sample issue used to instantiate theorems at concrete inputs. -/
def demoIssue : IssueFact :=
  ⟨some (str "K-1"), str "Fix parser crash", some (str "Blocked"), some (str "Ann")⟩

/-- Two projects with distinct names, used as a concrete FactDocument. -/
def demoFacts : Facts :=
  ⟨str "Team", str "2024-01-01",
   [⟨str "pA", str "Alpha", none, none, [demoIssue], []⟩,
    ⟨str "pB", str "Beta", none, none, [], []⟩]⟩

/-- Witness for C6 (amended) at a concrete FactDocument with two projects. -/
theorem render_route_roundtrip_witness :
    (demoFacts.projects.map (fun p => _normalize_name p.name)).Nodup ∧
    (∀ p ∈ demoFacts.projects, p.name ≠ []) ∧
    (_parse_project_updates (_facts_to_markdown (fun s => s) demoFacts)
        demoFacts.projects).map (fun u => (u.project_id, u.project_name)) =
      demoFacts.projects.map (fun p => (p.id, p.name)) :=
  ⟨by decide, by decide,
   render_route_roundtrip demoFacts (fun s => s) (by decide) (by decide)⟩

/-- A FactDocument with two distinct in-scope projects sharing one name,
both with non-empty issue lists. -/
def dupFacts : Facts :=
  ⟨str "Team", str "2024-01-01",
   [⟨str "p1", str "Alpha", none, none, [demoIssue], [demoIssue]⟩,
    ⟨str "p2", str "Alpha", none, none, [demoIssue], [demoIssue]⟩]⟩

/-- C6 fails as stated when two in-scope projects share a name: project `p1`
has non-empty issue lists, yet no routed section is keyed to `p1` — the
name-keyed lookup maps both sections to the later project `p2`. -/
theorem render_route_roundtrip_counterexample :
    (∃ p ∈ dupFacts.projects,
      p.id = str "p1" ∧ p.last_week_issues ≠ [] ∧ p.this_week_issues ≠ []) ∧
    (∀ u ∈ _parse_project_updates (_facts_to_markdown (fun s => s) dupFacts)
        dupFacts.projects, u.project_id ≠ str "p1") := by decide

theorem sectionsOf_cons_heading (l : Str) (ls : List Str) (h : isHeadingLine l = true) :
    sectionsOf (l :: ls) = sectionsAux ls (headingText l) [] := by
  rw [sectionsOf]
  simp [h]

theorem sectionsAux_append_heading (ls : List Str) (hline : Str)
    (hh : isHeadingLine hline = true) :
    ∀ name acc, sectionsAux (ls ++ [hline]) name acc =
      sectionsAux ls name acc ++ [(headingText hline, [])] := by
  induction ls with
  | nil =>
      intro name acc
      simp [sectionsAux, hh]
  | cons l rest ih =>
      intro name acc
      by_cases hl : isHeadingLine l = true
      · rw [List.cons_append, sectionsAux, if_pos hl, ih, sectionsAux, if_pos hl]
        simp
      · rw [List.cons_append, sectionsAux, if_neg hl, ih, sectionsAux, if_neg hl]

theorem sectionsOf_append_heading (doc : List Str) (hline : Str)
    (hh : isHeadingLine hline = true) :
    sectionsOf (doc ++ [hline]) = sectionsOf doc ++ [(headingText hline, [])] := by
  induction doc with
  | nil =>
      rw [List.nil_append, sectionsOf_cons_heading _ _ hh]
      simp [sectionsAux, sectionsOf]
  | cons l rest ih =>
      by_cases hl : isHeadingLine l = true
      · rw [List.cons_append, sectionsOf_cons_heading _ _ hl, sectionsOf_cons_heading _ _ hl,
          sectionsAux_append_heading rest hline hh]
      · rw [List.cons_append, sectionsOf_cons_not_heading _ _ (by simpa using hl),
          sectionsOf_cons_not_heading _ _ (by simpa using hl), ih]

theorem emit_section_empty_body (projects : List ProjectFacts) (h : Str) :
    emit_section projects (h, []) = none := by
  rw [emit_section]
  dsimp only
  cases hl : name_to_info projects (_normalize_name (pyStrip h)) with
  | none => rfl
  | some info =>
      obtain ⟨pid, pname⟩ := info
      dsimp only
      rw [if_pos (show pyStrip (joinLines []) = [] from rfl)]

theorem parse_trailing_heading (projects : List ProjectFacts) (doc : List Str)
    (hline : Str) (hh : isHeadingLine hline = true) :
    _parse_project_updates (doc ++ [hline]) projects =
      _parse_project_updates doc projects := by
  rw [_parse_project_updates, _parse_project_updates,
    sectionsOf_append_heading doc hline hh, List.filterMap_append]
  simp [List.filterMap_cons, emit_section_empty_body projects (headingText hline)]

/-- C7: the Update Router emits an entry for a heading/body pair exactly
when the dash-normalized, trimmed heading equals some project's name
normalized the same way and the body is non-empty after trimming;
unmatched headings and empty-bodied sections are dropped, a trailing
heading with no body is dropped without error, and headings using the
non-breaking hyphen, en dash or em dash match names using the plain ASCII
hyphen. -/
theorem update_router_emission (projects : List ProjectFacts) (sec : Str × List Str) :
    ((emit_section projects sec).isSome = true ↔
      ((∃ p ∈ projects, _normalize_name p.name = _normalize_name sec.1) ∧
        pyStrip (joinLines sec.2) ≠ [])) ∧
    (∀ doc hline, isHeadingLine hline = true →
      _parse_project_updates (doc ++ [hline]) projects =
        _parse_project_updates doc projects) ∧
    _normalize_name (str "alpha‑beta") = _normalize_name (str "alpha-beta") ∧
    _normalize_name (str "alpha–beta") = _normalize_name (str "alpha-beta") ∧
    _normalize_name (str "alpha—beta") = _normalize_name (str "alpha-beta") := by
  refine ⟨?_, fun doc hline hh => parse_trailing_heading projects doc hline hh,
    by decide, by decide, by decide⟩
  rw [emit_section, normalize_pyStrip]
  cases hl : name_to_info projects (_normalize_name sec.1) with
  | none =>
      simp only [Option.isSome_none, Bool.false_eq_true, false_iff]
      rintro ⟨⟨p, hp, hnorm⟩, _⟩
      rw [name_to_info] at hl
      have hf : projects.reverse.find?
          (fun q => decide (_normalize_name q.name = _normalize_name sec.1)) = none := by
        cases hf2 : projects.reverse.find?
            (fun q => decide (_normalize_name q.name = _normalize_name sec.1)) with
        | none => rfl
        | some q => rw [hf2] at hl; simp at hl
      rw [List.find?_eq_none] at hf
      exact hf p (List.mem_reverse.mpr hp) (by simp [hnorm])
  | some info =>
      obtain ⟨pid, pname⟩ := info
      dsimp only
      by_cases hc : pyStrip (joinLines sec.2) = []
      · rw [if_pos hc]
        simp only [Option.isSome_none, Bool.false_eq_true, false_iff]
        rintro ⟨_, hne⟩
        exact hne hc
      · rw [if_neg hc]
        simp only [Option.isSome_some, true_iff]
        refine ⟨?_, hc⟩
        rw [name_to_info] at hl
        cases hf : projects.reverse.find?
            (fun q => decide (_normalize_name q.name = _normalize_name sec.1)) with
        | none => rw [hf] at hl; simp at hl
        | some q =>
            have hqm : q ∈ projects := List.mem_reverse.mp (List.mem_of_find?_eq_some hf)
            have hqp := List.find?_some hf
            exact ⟨q, hqm, by simpa using hqp⟩

/-- Witness for C7 at concrete inputs: a matching section over the demo
projects, and a trailing heading appended to a concrete document. -/
theorem update_router_emission_witness :
    ((emit_section demoFacts.projects (str "Alpha", [str "Did things"])).isSome = true ↔
      ((∃ p ∈ demoFacts.projects,
          _normalize_name p.name = _normalize_name (str "Alpha", [str "Did things"]).1) ∧
        pyStrip (joinLines (str "Alpha", [str "Did things"]).2) ≠ [])) ∧
    isHeadingLine (str "## End") = true ∧
    _parse_project_updates ([str "## Alpha", str "Did things"] ++ [str "## End"])
        demoFacts.projects =
      _parse_project_updates [str "## Alpha", str "Did things"] demoFacts.projects :=
  ⟨(update_router_emission demoFacts.projects (str "Alpha", [str "Did things"])).1,
   by decide,
   (update_router_emission demoFacts.projects (str "Alpha", [str "Did things"])).2.1
     [str "## Alpha", str "Did things"] (str "## End") (by decide)⟩

end LinearUpdates
